import Mathlib

/-!
# Verification of the xmr utility profiler histogram engine

Shallow embedding of the single-type event profiler
(`src/include/xmr/utility/profiler/profiler.hpp`, with the identical
statistics code in `hpc_profiler.hpp` / `tsc_profiler.hpp`).

Modelling conventions:
* `uint64_t` values are `ℕ`; arithmetic that can overflow in any
  realistically-reachable execution (timestamp subtraction/addition in
  `track`, the multiply–accumulate in `total_time`) is reduced `% 2^64`
  explicitly.  The per-bucket counts and the `_total_counts` event counter
  are incremented by at most one per call, so their overflow would need
  `2^64` calls; they are modelled as plain `ℕ` increments.
* `std::map<uint64_t, uint64_t>` is an association list with strictly
  increasing keys (the `Sorted` invariant below); `begin()` is the head,
  `rbegin()` is the last element.
* the floating-point type parameter `T` of the percentile queries is
  modelled by `ℚ` (exact arithmetic); IEEE-754 special values, where a
  claim is about them, are modelled by the `F64` type below.
* the mutex only serialises calls; each operation is embedded as a pure
  state transformer.
-/

/-- The modulus `2^64` of `uint64_t` arithmetic. -/
def U64MOD : ℕ := 2 ^ 64

/-- The value `std::numeric_limits<uint64_t>::max()`. -/
def U64MAX : ℕ := 2 ^ 64 - 1

/-- The static percentile comparison tolerance `threshold = 0.000001`
(`profiler.hpp` lines 131/176). -/
def threshold : ℚ := 1 / 1000000

/-- Duration computation of `profiler::track` (profiler.hpp lines 52–59),
identical to step 2–3 of `hpc_profiler::stop` / `tsc_profiler::stop`:
`if (time_end >= time_start) difference = time_end - time_start;
 else difference = (max() - time_end) + time_start;`
The wrap-branch addition is `uint64_t` addition, hence the `% U64MOD`. -/
def trackDiff (time_end time_start : ℕ) : ℕ :=
  if time_start ≤ time_end then
    time_end - time_start
  else
    ((U64MAX - time_end) + time_start) % U64MOD

/-- Observable state of `xmr::utility::profiler::profiler`:
`_timings` (the ordered duration→count map) and `_total_counts`. -/
structure profiler where
  timings : List (ℕ × ℕ)
  total_counts : ℕ
deriving DecidableEq, Repr

/-- The freshly constructed engine (profiler.hpp line 39). -/
def profiler.init : profiler := ⟨[], 0⟩

/-- The find / increment-or-emplace step of `track` (profiler.hpp
lines 63–68) on the ordered map: locate the key `d`; if present increment
its count, otherwise insert `(d, 1)` at its ordered position. -/
def insertTiming : List (ℕ × ℕ) → ℕ → List (ℕ × ℕ)
  | [], d => [(d, 1)]
  | (k, c) :: rest, d =>
    if d < k then (d, 1) :: (k, c) :: rest
    else if d = k then (k, c + 1) :: rest
    else (k, c) :: insertTiming rest d

/-- Embedding of `profiler::track` (profiler.hpp lines 49–75): compute the difference,
insert it into `_timings`, increment `_total_counts`, and return the
difference together with the new state. -/
def profiler.track (s : profiler) (time_end time_start : ℕ) : ℕ × profiler :=
  let difference := trackDiff time_end time_start
  (difference,
    { timings := insertTiming s.timings difference
      total_counts := s.total_counts + 1 })

/-- Embedding of `profiler::clear` (profiler.hpp lines 79–84). -/
def profiler.clear (_s : profiler) : profiler := ⟨[], 0⟩

/-- Embedding of `profiler::total_events` (profiler.hpp lines 92–95). -/
def profiler.total_events (s : profiler) : ℕ := s.total_counts

/-- Embedding of `profiler::total_time` (profiler.hpp lines 101–109): the `uint64_t`
accumulation `time += kv.first * kv.second` over the map, with both the
multiplication and the addition wrapping mod `2^64`. -/
def profiler.total_time (s : profiler) : ℕ :=
  s.timings.foldl (fun time kv => (time + kv.1 * kv.2 % U64MOD) % U64MOD) 0

/-- Model of an IEEE-754 `double` as far as the claims need it: `nan`,
`inf`, or a finite value (rounding is not modelled; it never turns a
finite division into `nan`). -/
inductive F64 where
  | nan : F64
  | inf : F64
  | val : ℚ → F64
deriving DecidableEq, Repr

/-- IEEE-754 division of two finite non-negative doubles: `0/0` is NaN,
`x/0` with `x ≠ 0` is infinity, otherwise finite (rounding ignored). -/
def F64.fdiv (a b : ℚ) : F64 :=
  if b = 0 then (if a = 0 then .nan else .inf) else .val (a / b)

/-- Embedding of `profiler::average_time` (profiler.hpp lines 115–118):
`static_cast<double>(total_time()) / static_cast<double>(total_events())`,
with no guard for an empty engine. -/
def profiler.average_time (s : profiler) : F64 :=
  F64.fdiv (s.total_time : ℚ) (s.total_events : ℚ)

/-- The scan loop of `percentile_events` (profiler.hpp lines 199–205):
walk the map in ascending key order accumulating counts, and return the
first key whose cumulative fraction reaches the (already threshold-shifted)
target `t`. -/
def peLoop : List (ℕ × ℕ) → ℕ → ℕ → ℚ → Option ℕ
  | [], _, _, _ => none
  | (k, c) :: rest, accum, total, t =>
    let a := accum + c
    if t ≤ (a : ℚ) / (total : ℚ) then some k
    else peLoop rest a total t

/-- First key of the map: `_timings.begin()->first`. -/
def headKey (l : List (ℕ × ℕ)) : ℕ := (l.headD (0, 0)).1

/-- Last key of the map: `_timings.rbegin()->first`. -/
def lastKey (l : List (ℕ × ℕ)) : ℕ := (l.getLastD (0, 0)).1

/-- Embedding of `profiler::percentile_events` (profiler.hpp lines 173–208): empty guard
returning 0; the `<0%` band (`percentile - threshold <= 0 + threshold`)
returning the first key; the `>100%` band
(`percentile + threshold >= 1 - threshold`) returning the last key; then
the ascending scan, falling back to the last key. -/
def profiler.percentile_events (s : profiler) (percentile : ℚ) : ℕ :=
  if s.total_counts = 0 then 0
  else if percentile - threshold ≤ 0 + threshold then headKey s.timings
  else if 1 - threshold ≤ percentile + threshold then lastKey s.timings
  else
    match peLoop s.timings 0 s.total_counts (percentile - threshold) with
    | some k => k
    | none => lastKey s.timings

/-- The scan loop of `percentile_time` (profiler.hpp lines 155–162): for
each key, its fractional position `(key - tmin) / delta` within the span,
compared against the threshold-shifted target `t`.  When `delta = 0` the
C++ division is `0.0/0.0 = NaN` and the `>=` comparison is false; in ℚ the
division is `0`, and since the loop only runs with `t > 0` the comparison
is equally false, so the embedding agrees with the code. -/
def ptLoop : List (ℕ × ℕ) → ℕ → ℚ → ℚ → Option ℕ
  | [], _, _, _ => none
  | (k, _) :: rest, tmin, delta, t =>
    let fdelta : ℚ := ((k - tmin : ℕ) : ℚ)
    if t ≤ fdelta / delta then some k
    else ptLoop rest tmin delta t

/-- Embedding of `profiler::percentile_time` (profiler.hpp lines 128–165).  The C++
signature takes `uint64_t& time, uint64_t& amount` by reference; the
embedding threads their values through explicitly, returning
`(return value, time, amount)`.  The source never assigns either
reference parameter, so every branch passes `time` and `amount` through
unchanged. -/
def profiler.percentile_time (s : profiler) (percentile : ℚ) (time amount : ℕ) :
    ℕ × ℕ × ℕ :=
  if s.total_counts = 0 then (0, time, amount)
  else if percentile - threshold ≤ 0 + threshold then
    (headKey s.timings, time, amount)
  else if 1 - threshold ≤ percentile + threshold then
    (lastKey s.timings, time, amount)
  else
    let tmin := headKey s.timings
    let tmax := lastKey s.timings
    let delta : ℚ := ((tmax - tmin : ℕ) : ℚ)
    match ptLoop s.timings tmin delta (percentile - threshold) with
    | some k => (k, time, amount)
    | none => (lastKey s.timings, time, amount)

/-! ## Derived notions used to state the claims -/

/-- The key multiset of the map. -/
def keys (l : List (ℕ × ℕ)) : List ℕ := l.map Prod.fst

/-- Sum of all bucket counts. -/
def sumCounts (l : List (ℕ × ℕ)) : ℕ := (l.map Prod.snd).sum

/-- Exact (unreduced) `Σ key · count`. -/
def sumProducts (l : List (ℕ × ℕ)) : ℕ := (l.map fun kv => kv.1 * kv.2).sum

/-- Cumulative count of all samples with duration `≤ d`. -/
def cumCount (l : List (ℕ × ℕ)) (d : ℕ) : ℕ :=
  ((l.filter fun kv => kv.1 ≤ d).map Prod.snd).sum

/-- The `std::map` representation invariant: strictly increasing keys. -/
def Sorted (l : List (ℕ × ℕ)) : Prop :=
  l.Pairwise fun a b => a.1 < b.1

instance (l : List (ℕ × ℕ)) : Decidable (Sorted l) := by
  unfold Sorted; infer_instance

/-- Well-formed engine state: the map invariant, positive counts (a bucket
is created with count 1 and only ever incremented), and the maintained
total equal to the sum of the bucket counts. -/
def WF (s : profiler) : Prop :=
  Sorted s.timings ∧ (∀ kv ∈ s.timings, 0 < kv.2) ∧
    s.total_counts = sumCounts s.timings

instance (s : profiler) : Decidable (WF s) := by
  unfold WF; infer_instance

/-- States reachable from construction by completed `track` / `clear`
calls (a `stop` call records through the same code path as `track`). -/
inductive Reachable : profiler → Prop where
  | init : Reachable profiler.init
  | track (s : profiler) (time_end time_start : ℕ) :
      Reachable s → Reachable (s.track time_end time_start).2
  | clear (s : profiler) : Reachable s → Reachable s.clear

/-- Record a whole list of `(time_end, time_start)` pairs, in order, on a
fresh engine. -/
def recordAll (ps : List (ℕ × ℕ)) : profiler :=
  ps.foldl (fun s p => (s.track p.1 p.2).2) profiler.init

/-- Count recorded for key `d` (0 when absent): `std::map` lookup. -/
def lookupCount : List (ℕ × ℕ) → ℕ → ℕ
  | [], _ => 0
  | (k, c) :: rest, d => if d = k then c else lookupCount rest d

/-! ## Basic lemmas about the histogram operations -/

theorem sumCounts_insertTiming (l : List (ℕ × ℕ)) (d : ℕ) :
    sumCounts (insertTiming l d) = sumCounts l + 1 := by
  induction l with
  | nil => simp [insertTiming, sumCounts]
  | cons kv rest ih =>
    obtain ⟨k, c⟩ := kv
    by_cases h1 : d < k
    · simp [insertTiming, h1, sumCounts]
      ring
    · by_cases h2 : d = k
      · simp [insertTiming, h1, h2, sumCounts]
        ring
      · simp only [insertTiming, if_neg h1, if_neg h2, sumCounts, List.map_cons,
          List.sum_cons] at *
        omega

theorem sumCounts_eq_zero {l : List (ℕ × ℕ)} (hpos : ∀ kv ∈ l, 0 < kv.2)
    (h : sumCounts l = 0) : l = [] := by
  cases l with
  | nil => rfl
  | cons kv rest =>
    exfalso
    have := hpos kv (List.mem_cons_self kv rest)
    simp [sumCounts] at h
    omega

/-! ## C1: wraparound duration -/

/-- C1: the claim states that `track` computes the wraparound distance
`(end - start) mod 2^64`, and in particular that
`track(end = 1, start = MAX_U64 - 2)` yields `4`.  The code's wrap branch
computes `(MAX_U64 - end) + start` instead of the distance
`(MAX_U64 - start) + end + 1`, so at that very input it returns
`2^64 - 5`, not `4`: the code contradicts its own inline comment
("subtract b from max.int then add a") and the spec's required value. -/
theorem C1_track_wrap_counterexample :
    (profiler.init.track 1 (U64MOD - 3)).1 = U64MOD - 5 ∧
      U64MOD - 5 ≠ 4 ∧ (1 + U64MOD - (U64MOD - 3)) % U64MOD = 4 := by
  refine ⟨?_, by decide, by decide⟩
  decide

/-! ## C3: the duration formula as written in the code -/

/-- C3: for `uint64_t` inputs, the duration returned by `track` is
`end - start` when `end ≥ start`, and `(MAX_U64 - end) + start` (as a
wrapping `uint64_t` sum) when `end < start`; the result is always a
well-defined `uint64_t` value (i.e. `< 2^64`). -/
theorem C3_track_duration_formula (st : profiler) (time_end time_start : ℕ)
    (he : time_end < U64MOD) (hs : time_start < U64MOD) :
    ((time_start ≤ time_end →
        (st.track time_end time_start).1 = time_end - time_start) ∧
      (time_end < time_start →
        (st.track time_end time_start).1 =
          ((U64MAX - time_end) + time_start) % U64MOD)) ∧
      (st.track time_end time_start).1 < U64MOD := by
  have hdiff : (st.track time_end time_start).1 = trackDiff time_end time_start := rfl
  unfold trackDiff at hdiff
  refine ⟨⟨fun h => ?_, fun h => ?_⟩, ?_⟩
  · rw [hdiff, if_pos h]
  · rw [hdiff, if_neg (by omega)]
  · by_cases h : time_start ≤ time_end
    · rw [hdiff, if_pos h]; omega
    · rw [hdiff, if_neg h]
      have : U64MOD > 0 := by decide
      exact Nat.mod_lt _ this

/-- Witness for C3 at concrete inputs `end = 10`, `start = 3`. -/
theorem C3_track_duration_formula_witness :
    (10 : ℕ) < U64MOD ∧ (3 : ℕ) < U64MOD ∧
      (((3 ≤ 10 → (profiler.init.track 10 3).1 = 10 - 3) ∧
        (10 < 3 → (profiler.init.track 10 3).1 = ((U64MAX - 10) + 3) % U64MOD)) ∧
        (profiler.init.track 10 3).1 < U64MOD) :=
  ⟨by decide, by decide, C3_track_duration_formula profiler.init 10 3 (by decide) (by decide)⟩

/-! ## C4: average_time on an empty engine -/

/-- C4: on an engine with `total_events() == 0`, `average_time` performs
the unguarded division `0.0 / 0.0` and yields NaN; there is no
special-case guard, so the result is `F64.nan` in the IEEE-754 model. -/
theorem C4_average_time_empty_nan (s : profiler) (hWF : WF s)
    (h : s.total_events = 0) : s.average_time = F64.nan := by
  obtain ⟨-, hpos, htot⟩ := hWF
  have hcnt : s.total_counts = 0 := h
  have hnil : s.timings = [] := sumCounts_eq_zero hpos (htot ▸ hcnt)
  unfold profiler.average_time F64.fdiv profiler.total_time profiler.total_events
  rw [hnil, hcnt]
  simp

/-- Witness for C4: the freshly constructed engine. -/
theorem C4_average_time_empty_nan_witness :
    WF profiler.init ∧ profiler.init.total_events = 0 ∧
      profiler.init.average_time = F64.nan :=
  ⟨by decide, rfl, C4_average_time_empty_nan profiler.init (by decide) rfl⟩

/-! ## C7: total count equals the sum of the bucket counts -/

/-- C7: in every state reachable by completed `track` / `clear` calls
(`stop` records through the same path as `track`), including the initial
state, the total event count equals the sum of all histogram bucket
counts. -/
theorem C7_total_counts_eq_sumCounts (s : profiler) (h : Reachable s) :
    s.total_counts = sumCounts s.timings := by
  induction h with
  | init => rfl
  | track s e st _ ih =>
    show s.total_counts + 1 = sumCounts (insertTiming s.timings (trackDiff e st))
    rw [sumCounts_insertTiming, ih]
  | clear s _ => rfl

/-- Witness for C7: the state after one completed `track` call. -/
theorem C7_total_counts_eq_sumCounts_witness :
    (profiler.init.track 5 2).2.total_counts =
      sumCounts (profiler.init.track 5 2).2.timings :=
  C7_total_counts_eq_sumCounts (profiler.init.track 5 2).2
    (Reachable.track profiler.init 5 2 Reachable.init)

/-! ## C2: percentile_time and its output parameters -/

/-- C2: the claim states that `percentile_time` assigns, through its two
reference parameters, the matched duration and that duration's occurrence
count.  The source never writes either parameter: in every branch of the
function the caller's `time`/`amount` values are left untouched, even
though its own doc comment (`@param time` / `@param amount`) documents
them as outputs.  Concretely, on the engine holding one sample of
duration 10, requesting the 50th percentile matches duration 10 with
count 1, yet the sentinel values 999/888 survive unchanged; the first
conjunct shows no input ever changes them. -/
theorem C2_percentile_time_outputs_never_assigned :
    (∀ (s : profiler) (p : ℚ) (time amount : ℕ),
        (s.percentile_time p time amount).2 = (time, amount)) ∧
      profiler.percentile_time ⟨[(10, 1)], 1⟩ (1 / 2) 999 888 = (10, 999, 888) := by
  constructor
  · intro s p time amount
    unfold profiler.percentile_time
    split
    · rfl
    split
    · rfl
    split
    · rfl
    show (match ptLoop s.timings (headKey s.timings)
            ((lastKey s.timings - headKey s.timings : ℕ) : ℚ) (p - threshold) with
          | some k => (k, time, amount)
          | none => (lastKey s.timings, time, amount)).2 = (time, amount)
    cases ptLoop s.timings (headKey s.timings)
        ((lastKey s.timings - headKey s.timings : ℕ) : ℚ) (p - threshold) <;> rfl
  · norm_num [profiler.percentile_time, ptLoop, threshold, headKey, lastKey]

/-! ## C8: the postcondition of track -/

theorem lookupCount_eq_zero_of_not_mem {l : List (ℕ × ℕ)} {d : ℕ}
    (h : d ∉ keys l) : lookupCount l d = 0 := by
  induction l with
  | nil => rfl
  | cons kv rest ih =>
    obtain ⟨k, c⟩ := kv
    simp only [keys, List.map_cons, List.mem_cons] at h
    push_neg at h
    simp only [lookupCount, if_neg h.1]
    exact ih (by simpa [keys] using h.2)

theorem lookupCount_insertTiming_self {l : List (ℕ × ℕ)} (d : ℕ)
    (hs : Sorted l) : lookupCount (insertTiming l d) d = lookupCount l d + 1 := by
  induction l with
  | nil => simp [insertTiming, lookupCount]
  | cons kv rest ih =>
    obtain ⟨k, c⟩ := kv
    rw [Sorted, List.pairwise_cons] at hs
    obtain ⟨hlt, hrest⟩ := hs
    by_cases h1 : d < k
    · have hdk : d ≠ k := Nat.ne_of_lt h1
      have hnot : d ∉ keys ((k, c) :: rest) := by
        simp only [keys, List.map_cons, List.mem_cons]
        push_neg
        refine ⟨hdk, fun hmem => ?_⟩
        obtain ⟨kv, hkv, hfst⟩ := List.mem_map.mp hmem
        exact absurd (hfst ▸ hlt kv hkv) (by omega)
      rw [lookupCount_eq_zero_of_not_mem hnot]
      simp [insertTiming, h1, lookupCount]
    · by_cases h2 : d = k
      · subst h2
        simp [insertTiming, h1, lookupCount]
      · simp only [insertTiming, if_neg h1, if_neg h2, lookupCount, if_neg h2]
        exact ih hrest

theorem lookupCount_insertTiming_other {l : List (ℕ × ℕ)} (d k : ℕ)
    (h : k ≠ d) : lookupCount (insertTiming l d) k = lookupCount l k := by
  induction l with
  | nil => simp [insertTiming, lookupCount, h]
  | cons kv rest ih =>
    obtain ⟨k', c⟩ := kv
    by_cases h1 : d < k'
    · simp only [insertTiming, if_pos h1, lookupCount, if_neg h]
    · by_cases h2 : d = k'
      · subst h2
        simp only [insertTiming, if_pos rfl, if_neg h1, lookupCount, if_neg h]
      · simp only [insertTiming, if_neg h1, if_neg h2, lookupCount]
        by_cases h3 : k = k'
        · simp [h3]
        · simp only [if_neg h3]
          exact ih

/-- Membership in the key list after insertion. -/
theorem mem_keys_insertTiming_self (l : List (ℕ × ℕ)) (d : ℕ) :
    d ∈ keys (insertTiming l d) := by
  induction l with
  | nil => simp [insertTiming, keys]
  | cons kv rest ih =>
    obtain ⟨k, c⟩ := kv
    by_cases h1 : d < k
    · simp [insertTiming, h1, keys]
    · by_cases h2 : d = k
      · simp [insertTiming, h1, h2, keys]
      · simp only [insertTiming, if_neg h1, if_neg h2, keys, List.map_cons,
          List.mem_cons]
        right
        exact ih

/-! ## C8: the postcondition of track -/

/-- C8: `track` always succeeds: it returns the computed duration; the
new total is the old total plus one; if the duration was already a
histogram key its count is incremented by one, otherwise a bucket for it
appears with count one; and no other bucket changes. -/
theorem C8_track_postcondition (s : profiler) (time_end time_start : ℕ)
    (hs : Sorted s.timings) :
    (s.track time_end time_start).1 = trackDiff time_end time_start ∧
      (s.track time_end time_start).2.total_counts = s.total_counts + 1 ∧
      (trackDiff time_end time_start ∈ keys s.timings →
        lookupCount (s.track time_end time_start).2.timings
            (trackDiff time_end time_start) =
          lookupCount s.timings (trackDiff time_end time_start) + 1) ∧
      (trackDiff time_end time_start ∉ keys s.timings →
        trackDiff time_end time_start ∈
            keys (s.track time_end time_start).2.timings ∧
          lookupCount (s.track time_end time_start).2.timings
              (trackDiff time_end time_start) = 1) ∧
      (∀ k, k ≠ trackDiff time_end time_start →
        lookupCount (s.track time_end time_start).2.timings k =
          lookupCount s.timings k) := by
  refine ⟨rfl, rfl, fun _ => ?_, fun hmem => ⟨?_, ?_⟩, fun k hk => ?_⟩
  · exact lookupCount_insertTiming_self _ hs
  · exact mem_keys_insertTiming_self s.timings _
  · show lookupCount (insertTiming s.timings (trackDiff time_end time_start))
        (trackDiff time_end time_start) = 1
    rw [lookupCount_insertTiming_self _ hs, lookupCount_eq_zero_of_not_mem hmem]
  · exact lookupCount_insertTiming_other _ k hk

/-- Witness for C8: the engine holding `{3 ↦ 2}`, tracking
`end = 10, start = 7` (duration 3, an existing key). -/
theorem C8_track_postcondition_witness :
    Sorted ((⟨[(3, 2)], 2⟩ : profiler).timings) ∧
      ((profiler.track ⟨[(3, 2)], 2⟩ 10 7).1 = trackDiff 10 7 ∧
        (profiler.track ⟨[(3, 2)], 2⟩ 10 7).2.total_counts = 2 + 1 ∧
        (trackDiff 10 7 ∈ keys [(3, 2)] →
          lookupCount (profiler.track ⟨[(3, 2)], 2⟩ 10 7).2.timings
              (trackDiff 10 7) = lookupCount [(3, 2)] (trackDiff 10 7) + 1) ∧
        (trackDiff 10 7 ∉ keys [(3, 2)] →
          trackDiff 10 7 ∈ keys (profiler.track ⟨[(3, 2)], 2⟩ 10 7).2.timings ∧
            lookupCount (profiler.track ⟨[(3, 2)], 2⟩ 10 7).2.timings
              (trackDiff 10 7) = 1) ∧
        (∀ k, k ≠ trackDiff 10 7 →
          lookupCount (profiler.track ⟨[(3, 2)], 2⟩ 10 7).2.timings k =
            lookupCount [(3, 2)] k)) :=
  ⟨by decide, C8_track_postcondition ⟨[(3, 2)], 2⟩ 10 7 (by decide)⟩

/-! ## C9: total_time -/

theorem sumProducts_insertTiming (l : List (ℕ × ℕ)) (d : ℕ) :
    sumProducts (insertTiming l d) = sumProducts l + d := by
  induction l with
  | nil => simp [insertTiming, sumProducts]
  | cons kv rest ih =>
    obtain ⟨k, c⟩ := kv
    by_cases h1 : d < k
    · simp [insertTiming, h1, sumProducts]
      ring
    · by_cases h2 : d = k
      · subst h2
        simp [insertTiming, h1, sumProducts]
        ring
      · simp only [insertTiming, if_neg h1, if_neg h2, sumProducts, List.map_cons,
          List.sum_cons] at *
        omega

theorem total_time_foldl (l : List (ℕ × ℕ)) (a : ℕ) :
    l.foldl (fun time kv => (time + kv.1 * kv.2 % U64MOD) % U64MOD) (a % U64MOD) =
      (a + sumProducts l) % U64MOD := by
  induction l generalizing a with
  | nil => simp [sumProducts]
  | cons kv rest ih =>
    simp only [List.foldl_cons]
    rw [← Nat.add_mod, ih (a + kv.1 * kv.2)]
    have : sumProducts (kv :: rest) = kv.1 * kv.2 + sumProducts rest := by
      simp [sumProducts]
    rw [this]
    congr 1
    omega

theorem total_time_eq_sumProducts_mod (s : profiler) :
    s.total_time = sumProducts s.timings % U64MOD := by
  have h := total_time_foldl s.timings 0
  simpa [profiler.total_time] using h

theorem sumProducts_recordAll (ps : List (ℕ × ℕ)) (s : profiler) :
    sumProducts ((ps.foldl (fun s p => (s.track p.1 p.2).2) s).timings) =
      sumProducts s.timings + (ps.map fun p => trackDiff p.1 p.2).sum := by
  induction ps generalizing s with
  | nil => simp
  | cons p rest ih =>
    simp only [List.foldl_cons, List.map_cons, List.sum_cons]
    rw [ih]
    show sumProducts (insertTiming s.timings (trackDiff p.1 p.2)) + _ = _
    rw [sumProducts_insertTiming]
    omega

/-- C9 counterexample: recording the duration `2^63` twice (for instance
via `track(2^63, 0)`) makes the `uint64_t` accumulation
`time += kv.first * kv.second` wrap: `total_time` returns 0, while the
claim requires `Σ dᵢ = 2^64`. -/
theorem C9_total_time_counterexample :
    (recordAll [(2 ^ 63, 0), (2 ^ 63, 0)]).total_time ≠
        trackDiff (2 ^ 63) 0 + trackDiff (2 ^ 63) 0 ∧
      (recordAll [(2 ^ 63, 0), (2 ^ 63, 0)]).total_time = 0 ∧
      trackDiff (2 ^ 63) 0 + trackDiff (2 ^ 63) 0 = 2 ^ 64 := by
  refine ⟨by decide, by decide, by decide⟩

/-- C9 amended: `total_time()` returns `Σ (duration_key × count)` reduced
modulo `2^64` (each multiply and accumulate is `uint64_t` arithmetic),
which for any sequence of recorded durations `d₁..dₙ` equals
`(Σ dᵢ) mod 2^64`; it is 0 when the engine is empty.  The stated identity
`total_time() = Σ dᵢ` therefore holds exactly whenever `Σ dᵢ < 2^64`. -/
theorem C9_total_time_amended (ps : List (ℕ × ℕ)) :
    (recordAll ps).total_time =
        sumProducts (recordAll ps).timings % U64MOD ∧
      (recordAll ps).total_time =
        (ps.map fun p => trackDiff p.1 p.2).sum % U64MOD ∧
      ((ps.map fun p => trackDiff p.1 p.2).sum < U64MOD →
        (recordAll ps).total_time = (ps.map fun p => trackDiff p.1 p.2).sum) ∧
      profiler.init.total_time = 0 := by
  have h1 := total_time_eq_sumProducts_mod (recordAll ps)
  have h2 := sumProducts_recordAll ps profiler.init
  have h3 : sumProducts profiler.init.timings = 0 := rfl
  refine ⟨h1, ?_, fun hlt => ?_, rfl⟩
  · rw [h1]
    unfold recordAll
    rw [h2, h3, Nat.zero_add]
  · rw [h1]
    unfold recordAll
    rw [h2, h3, Nat.zero_add]
    exact Nat.mod_eq_of_lt hlt

/-! ## Sorted-map facts -/

theorem headKey_mem {l : List (ℕ × ℕ)} (h : l ≠ []) : headKey l ∈ keys l := by
  cases l with
  | nil => exact absurd rfl h
  | cons kv rest => simp [headKey, keys]

theorem lastKey_mem {l : List (ℕ × ℕ)} (h : l ≠ []) : lastKey l ∈ keys l := by
  induction l with
  | nil => exact absurd rfl h
  | cons kv rest ih =>
    cases rest with
    | nil => simp [lastKey, List.getLastD, keys]
    | cons kv2 rest2 =>
      have h2 := ih (List.cons_ne_nil kv2 rest2)
      have e1 : lastKey (kv :: kv2 :: rest2) = lastKey (kv2 :: rest2) := by
        simp [lastKey, List.getLastD_cons]
      rw [e1]
      simp only [keys, List.map_cons, List.mem_cons]
      right
      simpa [keys] using h2

theorem headKey_le {l : List (ℕ × ℕ)} (hs : Sorted l) {k : ℕ} (hk : k ∈ keys l) :
    headKey l ≤ k := by
  cases l with
  | nil => simp [keys] at hk
  | cons kv rest =>
    rw [Sorted, List.pairwise_cons] at hs
    simp only [keys, List.map_cons, List.mem_cons] at hk
    rcases hk with rfl | hk
    · exact le_refl _
    · obtain ⟨kv', hkv', rfl⟩ := List.mem_map.mp hk
      exact le_of_lt (hs.1 kv' hkv')

theorem le_lastKey {l : List (ℕ × ℕ)} (hs : Sorted l) {k : ℕ} (hk : k ∈ keys l) :
    k ≤ lastKey l := by
  induction l with
  | nil => simp [keys] at hk
  | cons kv rest ih =>
    rw [Sorted, List.pairwise_cons] at hs
    cases rest with
    | nil =>
      simp only [keys, List.map_cons, List.map_nil, List.mem_singleton] at hk
      subst hk
      simp [lastKey, List.getLastD]
    | cons kv2 rest2 =>
      have e1 : lastKey (kv :: kv2 :: rest2) = lastKey (kv2 :: rest2) := by
        simp [lastKey, List.getLastD_cons]
      rw [e1]
      simp only [keys, List.map_cons, List.mem_cons] at hk
      rcases hk with rfl | hk
      · have hmem := lastKey_mem (List.cons_ne_nil kv2 rest2)
        obtain ⟨kv', hkv', heq⟩ := List.mem_map.mp hmem
        exact le_of_lt (heq ▸ hs.1 kv' hkv')
      · exact ih hs.2 (by simpa [keys] using hk)

/-! ## Cumulative-count facts -/

theorem cumCount_cons (k0 c : ℕ) (rest : List (ℕ × ℕ)) (d : ℕ) :
    cumCount ((k0, c) :: rest) d =
      (if k0 ≤ d then c else 0) + cumCount rest d := by
  by_cases h : k0 ≤ d <;> simp [cumCount, List.filter_cons, h]

theorem cumCount_eq_zero {rest : List (ℕ × ℕ)} {d : ℕ}
    (h : ∀ kv ∈ rest, d < kv.1) : cumCount rest d = 0 := by
  have hf : rest.filter (fun kv => kv.1 ≤ d) = [] :=
    List.filter_eq_nil_iff.mpr fun kv hkv => by
      simpa using Nat.not_le.mpr (h kv hkv)
  simp [cumCount, hf]

theorem cumCount_lastKey {l : List (ℕ × ℕ)} (hs : Sorted l) :
    cumCount l (lastKey l) = sumCounts l := by
  have hf : l.filter (fun kv => kv.1 ≤ lastKey l) = l :=
    List.filter_eq_self.mpr fun kv hkv => by
      simpa using le_lastKey hs (List.mem_map_of_mem Prod.fst hkv)
  simp [cumCount, sumCounts, hf]

/-! ## Characterisation of the percentile_events scan -/

theorem peLoop_some_spec {l : List (ℕ × ℕ)} (hs : Sorted l)
    (acc total : ℕ) (t : ℚ) (k : ℕ) (h : peLoop l acc total t = some k) :
    k ∈ keys l ∧
      t ≤ ((acc + cumCount l k : ℕ) : ℚ) / (total : ℚ) ∧
      ∀ k' ∈ keys l, k' < k →
        ¬ t ≤ ((acc + cumCount l k' : ℕ) : ℚ) / (total : ℚ) := by
  induction l generalizing acc with
  | nil => simp [peLoop] at h
  | cons kv rest ih =>
    obtain ⟨k0, c⟩ := kv
    rw [Sorted, List.pairwise_cons] at hs
    obtain ⟨hlt, hrest⟩ := hs
    have hcum0 : cumCount ((k0, c) :: rest) k0 = c := by
      rw [cumCount_cons, if_pos (le_refl k0),
        cumCount_eq_zero fun kv hkv => hlt kv hkv]
      omega
    have hunfold : peLoop ((k0, c) :: rest) acc total t =
        if t ≤ ((acc + c : ℕ) : ℚ) / (total : ℚ) then some k0
        else peLoop rest (acc + c) total t := rfl
    by_cases htest : t ≤ ((acc + c : ℕ) : ℚ) / (total : ℚ)
    · rw [hunfold, if_pos htest] at h
      obtain rfl : k0 = k := by injection h
      refine ⟨by simp [keys], ?_, ?_⟩
      · rw [hcum0]
        exact htest
      · intro k' hk' hklt
        exfalso
        simp only [keys, List.map_cons, List.mem_cons] at hk'
        rcases hk' with rfl | hk'
        · exact absurd hklt (lt_irrefl _)
        · obtain ⟨kv', hkv', rfl⟩ := List.mem_map.mp hk'
          exact absurd hklt (not_lt_of_lt (hlt kv' hkv'))
    · rw [hunfold, if_neg htest] at h
      obtain ⟨hmem, hfrac, hmin⟩ := ih hrest (acc + c) h
      have hkey : k0 < k := by
        obtain ⟨kv', hkv', rfl⟩ := List.mem_map.mp hmem
        exact hlt kv' hkv'
      refine ⟨by simp only [keys, List.map_cons, List.mem_cons]; right; exact hmem,
        ?_, ?_⟩
      · rw [cumCount_cons, if_pos (le_of_lt hkey), ← Nat.add_assoc]
        exact hfrac
      · intro k' hk' hklt
        simp only [keys, List.map_cons, List.mem_cons] at hk'
        rcases hk' with rfl | hk'
        · rw [hcum0]
          exact htest
        · have hk0' : k0 < k' := by
            obtain ⟨kv', hkv', rfl⟩ := List.mem_map.mp hk'
            exact hlt kv' hkv'
          rw [cumCount_cons, if_pos (le_of_lt hk0'), ← Nat.add_assoc]
          exact hmin k' hk' hklt

theorem peLoop_none_spec {l : List (ℕ × ℕ)} (hs : Sorted l)
    (acc total : ℕ) (t : ℚ) (h : peLoop l acc total t = none) :
    ∀ k' ∈ keys l, ¬ t ≤ ((acc + cumCount l k' : ℕ) : ℚ) / (total : ℚ) := by
  induction l generalizing acc with
  | nil => simp [keys]
  | cons kv rest ih =>
    obtain ⟨k0, c⟩ := kv
    rw [Sorted, List.pairwise_cons] at hs
    obtain ⟨hlt, hrest⟩ := hs
    have hcum0 : cumCount ((k0, c) :: rest) k0 = c := by
      rw [cumCount_cons, if_pos (le_refl k0),
        cumCount_eq_zero fun kv hkv => hlt kv hkv]
      omega
    have hunfold : peLoop ((k0, c) :: rest) acc total t =
        if t ≤ ((acc + c : ℕ) : ℚ) / (total : ℚ) then some k0
        else peLoop rest (acc + c) total t := rfl
    by_cases htest : t ≤ ((acc + c : ℕ) : ℚ) / (total : ℚ)
    · rw [hunfold, if_pos htest] at h
      exact absurd h (by simp)
    · rw [hunfold, if_neg htest] at h
      intro k' hk'
      simp only [keys, List.map_cons, List.mem_cons] at hk'
      rcases hk' with rfl | hk'
      · rw [hcum0]
        exact htest
      · have hk0' : k0 < k' := by
          obtain ⟨kv', hkv', rfl⟩ := List.mem_map.mp hk'
          exact hlt kv' hkv'
        rw [cumCount_cons, if_pos (le_of_lt hk0'), ← Nat.add_assoc]
        exact ih hrest (acc + c) h k' hk'

theorem timings_ne_nil {s : profiler} (hWF : WF s) (h : s.total_counts ≠ 0) :
    s.timings ≠ [] := by
  intro hnil
  exact h (by rw [hWF.2.2, hnil]; rfl)

/-! ## C5: the percentile_events contract -/

/-- C5: `percentile_events` returns 0 on an empty engine; at/below the 0%
band it returns the minimum key; at/above the 100% band (in particular at
`p = 1`) it returns the maximum key (`percentile_events 0` /
`percentile_events 1` are stated explicitly, together with the fact that
the first/last map keys are the minimum/maximum recorded durations); and
for `p` strictly between the bands it returns the smallest duration key
whose cumulative count fraction is `≥ p - ε`, `ε = 10⁻⁶`. -/
theorem C5_percentile_events_spec (s : profiler) (p : ℚ) (hWF : WF s) :
    (s.total_counts = 0 → s.percentile_events p = 0) ∧
      (s.total_counts ≠ 0 →
        s.percentile_events 0 = headKey s.timings ∧
          s.percentile_events 1 = lastKey s.timings ∧
          (∀ k ∈ keys s.timings,
            headKey s.timings ≤ k ∧ k ≤ lastKey s.timings) ∧
          (p - threshold ≤ 0 + threshold →
            s.percentile_events p = headKey s.timings) ∧
          (1 - threshold ≤ p + threshold →
            s.percentile_events p = lastKey s.timings) ∧
          (0 + threshold < p - threshold → p + threshold < 1 - threshold →
            s.percentile_events p ∈ keys s.timings ∧
              p - threshold ≤
                (cumCount s.timings (s.percentile_events p) : ℚ) /
                  (s.total_counts : ℚ) ∧
              ∀ k ∈ keys s.timings,
                p - threshold ≤
                    (cumCount s.timings k : ℚ) / (s.total_counts : ℚ) →
                  s.percentile_events p ≤ k)) := by
  obtain ⟨hsort, hpos, htot⟩ := hWF
  have hthr : (0 : ℚ) < threshold := by norm_num [threshold]
  constructor
  · intro h0
    unfold profiler.percentile_events
    rw [if_pos h0]
  · intro htc
    have hne : s.timings ≠ [] := timings_ne_nil ⟨hsort, hpos, htot⟩ htc
    refine ⟨?_, ?_, ?_, ?_, ?_, ?_⟩
    · unfold profiler.percentile_events
      rw [if_neg htc, if_pos (by linarith : (0 : ℚ) - threshold ≤ 0 + threshold)]
    · unfold profiler.percentile_events
      rw [if_neg htc,
        if_neg (by norm_num [threshold] : ¬((1 : ℚ) - threshold ≤ 0 + threshold)),
        if_pos (by linarith : (1 : ℚ) - threshold ≤ 1 + threshold)]
    · intro k hk
      exact ⟨headKey_le hsort hk, le_lastKey hsort hk⟩
    · intro hlow
      unfold profiler.percentile_events
      rw [if_neg htc, if_pos hlow]
    · intro hhigh
      unfold profiler.percentile_events
      rw [if_neg htc]
      by_cases hlow : p - threshold ≤ 0 + threshold
      · exfalso
        rw [threshold] at hlow hhigh
        linarith
      · rw [if_neg hlow, if_pos hhigh]
    · intro hlow hhigh
      unfold profiler.percentile_events
      rw [if_neg htc, if_neg (not_le.mpr hlow), if_neg (not_le.mpr hhigh)]
      cases hm : peLoop s.timings 0 s.total_counts (p - threshold) with
      | none =>
        exfalso
        have hlast := peLoop_none_spec hsort 0 s.total_counts (p - threshold) hm
          (lastKey s.timings) (lastKey_mem hne)
        rw [cumCount_lastKey hsort, ← htot, Nat.zero_add] at hlast
        apply hlast
        rw [div_self (by exact_mod_cast htc : (s.total_counts : ℚ) ≠ 0)]
        linarith
      | some k =>
        obtain ⟨hmem, hfrac, hmin⟩ :=
          peLoop_some_spec hsort 0 s.total_counts _ k hm
        refine ⟨hmem, by simpa using hfrac, ?_⟩
        intro k' hk' hfrac'
        by_contra hlt
        push_neg at hlt
        exact hmin k' hk' hlt (by simpa using hfrac')

/-- Witness for C5: the engine `{10 ↦ 2, 20 ↦ 1, 30 ↦ 1}` (4 events) at
`p = 1/2`, which resolves to duration 10. -/
theorem C5_percentile_events_spec_witness :
    WF ⟨[(10, 2), (20, 1), (30, 1)], 4⟩ ∧
      (((⟨[(10, 2), (20, 1), (30, 1)], 4⟩ : profiler).total_counts = 0 →
          (⟨[(10, 2), (20, 1), (30, 1)], 4⟩ : profiler).percentile_events (1 / 2) = 0) ∧
        ((⟨[(10, 2), (20, 1), (30, 1)], 4⟩ : profiler).total_counts ≠ 0 →
          (⟨[(10, 2), (20, 1), (30, 1)], 4⟩ : profiler).percentile_events 0 =
              headKey [(10, 2), (20, 1), (30, 1)] ∧
            (⟨[(10, 2), (20, 1), (30, 1)], 4⟩ : profiler).percentile_events 1 =
              lastKey [(10, 2), (20, 1), (30, 1)] ∧
            (∀ k ∈ keys [(10, 2), (20, 1), (30, 1)],
              headKey [(10, 2), (20, 1), (30, 1)] ≤ k ∧
                k ≤ lastKey [(10, 2), (20, 1), (30, 1)]) ∧
            (1 / 2 - threshold ≤ 0 + threshold →
              (⟨[(10, 2), (20, 1), (30, 1)], 4⟩ : profiler).percentile_events (1 / 2) =
                headKey [(10, 2), (20, 1), (30, 1)]) ∧
            (1 - threshold ≤ 1 / 2 + threshold →
              (⟨[(10, 2), (20, 1), (30, 1)], 4⟩ : profiler).percentile_events (1 / 2) =
                lastKey [(10, 2), (20, 1), (30, 1)]) ∧
            (0 + threshold < 1 / 2 - threshold → 1 / 2 + threshold < 1 - threshold →
              (⟨[(10, 2), (20, 1), (30, 1)], 4⟩ : profiler).percentile_events (1 / 2) ∈
                  keys [(10, 2), (20, 1), (30, 1)] ∧
                1 / 2 - threshold ≤
                  (cumCount [(10, 2), (20, 1), (30, 1)]
                      ((⟨[(10, 2), (20, 1), (30, 1)], 4⟩ : profiler).percentile_events
                        (1 / 2)) : ℚ) /
                    ((⟨[(10, 2), (20, 1), (30, 1)], 4⟩ : profiler).total_counts : ℚ) ∧
                ∀ k ∈ keys [(10, 2), (20, 1), (30, 1)],
                  1 / 2 - threshold ≤
                      (cumCount [(10, 2), (20, 1), (30, 1)] k : ℚ) /
                        ((⟨[(10, 2), (20, 1), (30, 1)], 4⟩ : profiler).total_counts : ℚ) →
                    (⟨[(10, 2), (20, 1), (30, 1)], 4⟩ : profiler).percentile_events
                        (1 / 2) ≤ k))) :=
  ⟨by decide, C5_percentile_events_spec ⟨[(10, 2), (20, 1), (30, 1)], 4⟩ (1 / 2)
    (by decide)⟩

theorem percentile_events_mem {s : profiler} (hsort : Sorted s.timings)
    (hne : s.timings ≠ []) (htc : s.total_counts ≠ 0) (p : ℚ) :
    s.percentile_events p ∈ keys s.timings := by
  unfold profiler.percentile_events
  rw [if_neg htc]
  by_cases h1 : p - threshold ≤ 0 + threshold
  · rw [if_pos h1]
    exact headKey_mem hne
  rw [if_neg h1]
  by_cases h2 : 1 - threshold ≤ p + threshold
  · rw [if_pos h2]
    exact lastKey_mem hne
  rw [if_neg h2]
  cases hm : peLoop s.timings 0 s.total_counts (p - threshold) with
  | none => exact lastKey_mem hne
  | some k => exact (peLoop_some_spec hsort 0 s.total_counts _ k hm).1

/-! ## C6: monotonicity of percentile_events -/

/-- C6: `percentile_events` is monotone in its argument: for every
well-formed engine state and all `0 ≤ p1 ≤ p2 ≤ 1`,
`percentile_events p1 ≤ percentile_events p2`. -/
theorem C6_percentile_events_monotone (s : profiler) (p1 p2 : ℚ) (hWF : WF s)
    (h0 : 0 ≤ p1) (h12 : p1 ≤ p2) (h1 : p2 ≤ 1) :
    s.percentile_events p1 ≤ s.percentile_events p2 := by
  obtain ⟨hsort, hpos, htot⟩ := hWF
  by_cases htc : s.total_counts = 0
  · simp [profiler.percentile_events, htc]
  · have hne := timings_ne_nil ⟨hsort, hpos, htot⟩ htc
    by_cases hlow1 : p1 - threshold ≤ 0 + threshold
    · have e1 : s.percentile_events p1 = headKey s.timings := by
        unfold profiler.percentile_events
        rw [if_neg htc, if_pos hlow1]
      rw [e1]
      exact headKey_le hsort (percentile_events_mem hsort hne htc p2)
    · by_cases hhigh1 : 1 - threshold ≤ p1 + threshold
      · have hhigh2 : 1 - threshold ≤ p2 + threshold := by linarith
        have e1 : s.percentile_events p1 = lastKey s.timings := by
          unfold profiler.percentile_events
          rw [if_neg htc, if_neg hlow1, if_pos hhigh1]
        have e2 : s.percentile_events p2 = lastKey s.timings := by
          unfold profiler.percentile_events
          rw [if_neg htc, if_neg (by linarith : ¬(p2 - threshold ≤ 0 + threshold)),
            if_pos hhigh2]
        rw [e1, e2]
      · by_cases hhigh2 : 1 - threshold ≤ p2 + threshold
        · have e2 : s.percentile_events p2 = lastKey s.timings := by
            unfold profiler.percentile_events
            rw [if_neg htc, if_neg (by linarith : ¬(p2 - threshold ≤ 0 + threshold)),
              if_pos hhigh2]
          rw [e2]
          exact le_lastKey hsort (percentile_events_mem hsort hne htc p1)
        · have hlow2 : ¬(p2 - threshold ≤ 0 + threshold) := by linarith
          have ht12 : p1 - threshold ≤ p2 - threshold := by linarith
          have e1u : s.percentile_events p1 =
              match peLoop s.timings 0 s.total_counts (p1 - threshold) with
              | some k => k
              | none => lastKey s.timings := by
            unfold profiler.percentile_events
            rw [if_neg htc, if_neg hlow1, if_neg hhigh1]
          have e2u : s.percentile_events p2 =
              match peLoop s.timings 0 s.total_counts (p2 - threshold) with
              | some k => k
              | none => lastKey s.timings := by
            unfold profiler.percentile_events
            rw [if_neg htc, if_neg hlow2, if_neg hhigh2]
          rw [e1u, e2u]
          cases hm1 : peLoop s.timings 0 s.total_counts (p1 - threshold) with
          | none =>
            cases hm2 : peLoop s.timings 0 s.total_counts (p2 - threshold) with
            | none => exact le_refl _
            | some k2 =>
              exfalso
              obtain ⟨hmem2, hfrac2, -⟩ :=
                peLoop_some_spec hsort 0 s.total_counts _ k2 hm2
              exact peLoop_none_spec hsort 0 s.total_counts _ hm1 k2 hmem2
                (le_trans ht12 hfrac2)
          | some k1 =>
            obtain ⟨hmem1, hfrac1, hmin1⟩ :=
              peLoop_some_spec hsort 0 s.total_counts _ k1 hm1
            cases hm2 : peLoop s.timings 0 s.total_counts (p2 - threshold) with
            | none => exact le_lastKey hsort hmem1
            | some k2 =>
              obtain ⟨hmem2, hfrac2, hmin2⟩ :=
                peLoop_some_spec hsort 0 s.total_counts _ k2 hm2
              by_contra hlt
              push_neg at hlt
              exact hmin1 k2 hmem2 hlt (le_trans ht12 hfrac2)

/-- Witness for C6: the engine `{10 ↦ 2, 20 ↦ 1, 30 ↦ 1}` with
`p1 = 1/4 ≤ p2 = 3/4`. -/
theorem C6_percentile_events_monotone_witness :
    WF ⟨[(10, 2), (20, 1), (30, 1)], 4⟩ ∧ (0 : ℚ) ≤ 1 / 4 ∧
      (1 / 4 : ℚ) ≤ 3 / 4 ∧ (3 / 4 : ℚ) ≤ 1 ∧
      (⟨[(10, 2), (20, 1), (30, 1)], 4⟩ : profiler).percentile_events (1 / 4) ≤
        (⟨[(10, 2), (20, 1), (30, 1)], 4⟩ : profiler).percentile_events (3 / 4) :=
  ⟨by decide, by norm_num, by norm_num, by norm_num,
    C6_percentile_events_monotone ⟨[(10, 2), (20, 1), (30, 1)], 4⟩ (1 / 4) (3 / 4)
      (by decide) (by norm_num) (by norm_num) (by norm_num)⟩

/-! ## C10: percentile_time with a single distinct duration -/

/-- C10: when the histogram holds exactly one distinct duration `k` and
the percentile lies strictly between the 0% and 100% bands, the span
`tmax - tmin` is 0, every in-loop fractional-position comparison is a
`0/0` comparison that evaluates false (`NaN` in the C++ doubles, `0`
against a strictly positive target in the ℚ model — false either way), so
the post-scan fallback returns the maximum (i.e. only) key `k`: the
operation is total and the returned value is never out of range. -/
theorem C10_percentile_time_single_bucket (s : profiler) (p : ℚ) (k c : ℕ)
    (hl : s.timings = [(k, c)]) (htc : s.total_counts ≠ 0)
    (hlow : 0 + threshold < p - threshold)
    (hhigh : p + threshold < 1 - threshold) (time amount : ℕ) :
    (s.percentile_time p time amount).1 = k := by
  have hthr : (0 : ℚ) < threshold := by norm_num [threshold]
  have hh : headKey [(k, c)] = k := rfl
  have hlst : lastKey [(k, c)] = k := rfl
  unfold profiler.percentile_time
  rw [if_neg htc, if_neg (not_le.mpr hlow), if_neg (not_le.mpr hhigh), hl]
  show (match ptLoop [(k, c)] (headKey [(k, c)])
        ((lastKey [(k, c)] - headKey [(k, c)] : ℕ) : ℚ) (p - threshold) with
      | some k' => (k', time, amount)
      | none => (lastKey [(k, c)], time, amount)).1 = k
  have hpt : ptLoop [(k, c)] (headKey [(k, c)])
      ((lastKey [(k, c)] - headKey [(k, c)] : ℕ) : ℚ) (p - threshold) = none := by
    have e : ptLoop [(k, c)] (headKey [(k, c)])
        ((lastKey [(k, c)] - headKey [(k, c)] : ℕ) : ℚ) (p - threshold) =
        if p - threshold ≤ ((k - headKey [(k, c)] : ℕ) : ℚ) /
            ((lastKey [(k, c)] - headKey [(k, c)] : ℕ) : ℚ) then some k
        else none := rfl
    rw [e, hh, hlst, Nat.sub_self]
    rw [if_neg (by simpa using by linarith : ¬(p - threshold ≤
      ((0 : ℕ) : ℚ) / ((0 : ℕ) : ℚ)))]
  rw [hpt, hlst]

/-- Witness for C10: the engine `{7 ↦ 3}` at `p = 1/2`. -/
theorem C10_percentile_time_single_bucket_witness :
    (⟨[(7, 3)], 3⟩ : profiler).timings = [(7, 3)] ∧
      (⟨[(7, 3)], 3⟩ : profiler).total_counts ≠ 0 ∧
      0 + threshold < (1 / 2 : ℚ) - threshold ∧
      (1 / 2 : ℚ) + threshold < 1 - threshold ∧
      ((⟨[(7, 3)], 3⟩ : profiler).percentile_time (1 / 2) 999 888).1 = 7 :=
  ⟨rfl, by decide, by norm_num [threshold], by norm_num [threshold],
    C10_percentile_time_single_bucket ⟨[(7, 3)], 3⟩ (1 / 2) 7 3 rfl (by decide)
      (by norm_num [threshold]) (by norm_num [threshold]) 999 888⟩

/-- Witness for C9's amended statement: the durations `10, 20` recorded
via `track(10, 0)`, `track(20, 0)` give `total_time = 30`. -/
theorem C9_total_time_amended_witness :
    (recordAll [(10, 0), (20, 0)]).total_time =
        sumProducts (recordAll [(10, 0), (20, 0)]).timings % U64MOD ∧
      (recordAll [(10, 0), (20, 0)]).total_time =
        (([(10, 0), (20, 0)] : List (ℕ × ℕ)).map
          fun p => trackDiff p.1 p.2).sum % U64MOD ∧
      ((([(10, 0), (20, 0)] : List (ℕ × ℕ)).map
          fun p => trackDiff p.1 p.2).sum < U64MOD →
        (recordAll [(10, 0), (20, 0)]).total_time =
          (([(10, 0), (20, 0)] : List (ℕ × ℕ)).map
            fun p => trackDiff p.1 p.2).sum) ∧
      profiler.init.total_time = 0 :=
  C9_total_time_amended [(10, 0), (20, 0)]
